import Mathlib

/-!
# Verification of `docs/convert_try_blocks.py`

The program is a one-shot source rewriter.  Its core is a single Python
regular-expression substitution

  `try_pattern = r'(\s+)try do\n(.*?)(\n\s+(?:rescue|catch|after).*?)(\n\s+end)'`

applied with `re.sub(try_pattern, replace_try_block, content, flags=re.DOTALL |
re.MULTILINE)`, where the replacement keeps groups 2 and 3 (body and handler
clauses) and drops groups 1 and 4.  The `MULTILINE` flag only affects the
anchors `^`/`$`, which do not occur in the pattern, so it is semantically inert;
`DOTALL` makes `.` match newline.

We embed the substitution as a deterministic scanner.  This is faithful because
in this particular pattern every backtracking choice is forced:

* each `\s+` is immediately followed by a literal starting with a
  non-whitespace character (`try do`, `rescue`/`catch`/`after`, `end`), so a
  greedy `\s+` must consume exactly the maximal whitespace run at its position
  — any shorter choice leaves a whitespace character where the literal's first
  (non-whitespace) character is required;
* the two lazy `.*?` wildcards (group 2, and the tail of group 3) each take the
  least number of characters such that the rest of the pattern matches, which
  we implement as a left-to-right walk trying the continuation at every
  position;
* the alternation `rescue|catch|after` is tried in order (the three literals
  have pairwise distinct first characters, so at most one applies);
* `re.sub` replaces non-overlapping matches left to right, scanning forward
  one character at a time and resuming immediately after each match.

Python's `\s` on `str` patterns matches Unicode whitespace; all texts handled
by this repository are ASCII, for which `\s` is exactly the six characters
modelled by `isWS` below.

The driver (`main`) is modelled over an association-list filesystem; the
hard-coded list of nineteen absolute paths is embedded verbatim.
-/

/-- Whitespace as matched by the pattern's `\s` on ASCII text:
space, tab, newline, carriage return, vertical tab, form feed. -/
def isWS (c : Char) : Bool :=
  c = ' ' || c = '\t' || c = '\n' || c = '\r' || c = '\x0b' || c = '\x0c'

/-- The literal `try do\n` that follows group 1 in the pattern. -/
def tryDoNl : List Char := "try do\n".data

/-- The literal `try do` (the block-open marker itself). -/
def tryDoLit : List Char := "try do".data

/-- The handler keyword `rescue`. -/
def rescueLit : List Char := "rescue".data

/-- The handler keyword `catch`. -/
def catchLit : List Char := "catch".data

/-- The handler keyword `after`. -/
def afterLit : List Char := "after".data

/-- The terminator literal `end`. -/
def endLit : List Char := "end".data

/-- Split off the maximal whitespace prefix (the unique way a greedy `\s+`
followed by a non-whitespace literal can match). -/
def takeWS : List Char → List Char × List Char
  | [] => ([], [])
  | c :: t =>
    if isWS c then
      let r := takeWS t
      (c :: r.1, r.2)
    else ([], c :: t)

/-- `stripLit l s` returns `some r` iff `s = l ++ r` (literal matching). -/
def stripLit : List Char → List Char → Option (List Char)
  | [], s => some s
  | _ :: _, [] => none
  | c :: l, d :: s => if c = d then stripLit l s else none

/-- Match group 4, `(\n\s+end)`, at the current position.  Returns the matched
text and the remainder. -/
def matchG4 : List Char → Option (List Char × List Char)
  | [] => none
  | c :: t =>
    if c = '\n' then
      let w := takeWS t
      if w.1 = [] then none
      else
        match stripLit endLit w.2 with
        | some rest => some (c :: (w.1 ++ endLit), rest)
        | none => none
    else none

/-- The lazy wildcard closing group 3: walk forward, trying group 4 at every
position (shortest match first, `DOTALL` so any character may be skipped).
Returns (skipped text, group-4 text, remainder). -/
def lazyG4 : List Char → Option (List Char × List Char × List Char)
  | [] => none
  | c :: t =>
    match matchG4 (c :: t) with
    | some (g, r) => some ([], g, r)
    | none =>
      match lazyG4 t with
      | some (m, g, r) => some (c :: m, g, r)
      | none => none

/-- The alternation `rescue|catch|after`, tried in order. -/
def kwStrip (s : List Char) : Option (List Char × List Char) :=
  match stripLit rescueLit s with
  | some r => some (rescueLit, r)
  | none =>
    match stripLit catchLit s with
    | some r => some (catchLit, r)
    | none =>
      match stripLit afterLit s with
      | some r => some (afterLit, r)
      | none => none

/-- Match group 3 followed by group 4, `(\n\s+(?:rescue|catch|after).*?)(\n\s+end)`,
at the current position.  Returns (group-3 text, group-4 text, remainder). -/
def matchG3G4 : List Char → Option (List Char × List Char × List Char)
  | [] => none
  | c :: t =>
    if c = '\n' then
      let w := takeWS t
      if w.1 = [] then none
      else
        match kwStrip w.2 with
        | some (kw, r2) =>
          match lazyG4 r2 with
          | some (m, g4, rest) => some (c :: (w.1 ++ kw ++ m), g4, rest)
          | none => none
        | none => none
    else none

/-- The lazy body wildcard (group 2): walk forward, trying groups 3–4 at every
position.  Returns (body, group-3 text, group-4 text, remainder). -/
def lazyG3 : List Char → Option (List Char × List Char × List Char × List Char)
  | [] => none
  | c :: t =>
    match matchG3G4 (c :: t) with
    | some (g3, g4, r) => some ([], g3, g4, r)
    | none =>
      match lazyG3 t with
      | some (g2, g3, g4, r) => some (c :: g2, g3, g4, r)
      | none => none

/-- Attempt the whole pattern at the current position.  On success returns the
replacement text `group2 ++ group3` (what `replace_try_block` produces) and the
remainder of the input after the matched span. -/
def matchAt (s : List Char) : Option (List Char × List Char) :=
  let w := takeWS s
  if w.1 = [] then none
  else
    match stripLit tryDoNl w.2 with
    | some r =>
      match lazyG3 r with
      | some (g2, g3, _, rest) => some (g2 ++ g3, rest)
      | none => none
    | none => none

/-- Fuel-indexed scanner for `re.sub`: at each position try the pattern; on a
match emit the replacement and resume after the matched span, otherwise copy
one character and advance.  One unit of fuel is spent per step, so fuel equal
to the input length always suffices (each step consumes at least one input
character). -/
def subTryF : Nat → List Char → List Char
  | 0, s => s
  | f + 1, s =>
    match matchAt s with
    | some (repl, rest) => repl ++ subTryF f rest
    | none =>
      match s with
      | [] => []
      | c :: t => c :: subTryF f t

/-- `re.sub(try_pattern, replace_try_block, s, flags=re.DOTALL | re.MULTILINE)`
on character lists. -/
def conv (s : List Char) : List Char := subTryF s.length s

/-- The Rewriter on strings: the new content computed by `convert_try_blocks`
before the write-back decision. -/
def convertText (s : String) : String := ⟨conv s.data⟩

/-- The changed flag of `convert_try_blocks`: the new content compared against
the original content (`content != original_content`). -/
def convertChanged (s : String) : Bool := convertText s != s

/-- Whether the block-open marker `try do` occurs as a substring. -/
def containsTryDo : List Char → Bool
  | [] => false
  | c :: t => (stripLit tryDoLit (c :: t)).isSome || containsTryDo t

/-- A run of `n` spaces. -/
def spaces (n : Nat) : List Char := List.replicate n ' '

/-- A block whose open marker, handler marker and terminator are indented by
`n1`, `n2` and `n3` spaces respectively, followed by arbitrary text `t`. -/
def indentBlock (n1 n2 n3 : Nat) (t : List Char) : List Char :=
  spaces n1 ++ (tryDoNl ++ ("  b".data ++ ('\n' :: (spaces n2 ++ (rescueLit ++
    (" r".data ++ ('\n' :: (spaces n3 ++ (endLit ++ t)))))))))

/-! ## Filesystem model and the driver

The filesystem is an association list from absolute paths to file contents.
`fsRead` models opening a file for reading (`None` when the path does not
exist, i.e. `os.path.exists` is false); `fsWrite` models opening an existing
file for writing and replacing its full contents. -/

def FS : Type := List (String × String)

/-- Contents of the file at `p`, or `none` when no such file exists. -/
def fsRead : FS → String → Option String
  | [], _ => none
  | (k, v) :: t, p => if p = k then some v else fsRead t p

/-- Overwrite the contents of the file at `p` (a write to an existing file;
keys are unchanged). -/
def fsWrite : FS → String → String → FS
  | [], _, _ => []
  | (k, v) :: t, p, nv => if k = p then (k, nv) :: fsWrite t p nv else (k, v) :: fsWrite t p nv

/-- `convert_try_blocks(file_path)`: read the content, rewrite it, write the
new content back iff it differs from the original, and return whether it
differed.  (The driver only calls this on existing paths; on a missing path
the model returns the filesystem unchanged where the source would raise.) -/
def convertFile (fs : FS) (p : String) : FS × Bool :=
  match fsRead fs p with
  | none => (fs, false)
  | some content =>
    let newContent := convertText content
    if newContent = content then (fs, false)
    else (fsWrite fs p newContent, true)

/-- The hard-coded `test_files` list of `main`, verbatim. -/
def test_files : List String :=
  [ "/home/home/p/g/n/ds_ex/test/concurrent/concurrent_execution_test.exs",
    "/home/home/p/g/n/ds_ex/test/concurrent/client_stress_test.exs",
    "/home/home/p/g/n/ds_ex/test/concurrent/race_condition_test.exs",
    "/home/home/p/g/n/ds_ex/test/property/signature_data_property_test.exs",
    "/home/home/p/g/n/ds_ex/test/property/evaluation_metrics_property_test.exs",
    "/home/home/p/g/n/ds_ex/test/unit/telemetry_race_condition_test.exs",
    "/home/home/p/g/n/ds_ex/test/unit/mock_contamination_test.exs",
    "/home/home/p/g/n/ds_ex/test/unit/system_edge_cases_test.exs",
    "/home/home/p/g/n/ds_ex/test/unit/foundation_lifecycle_test.exs",
    "/home/home/p/g/n/ds_ex/test/unit/bootstrap_advanced_test.exs",
    "/home/home/p/g/n/ds_ex/test/unit/teleprompter/simba/strategy_test.exs",
    "/home/home/p/g/n/ds_ex/test/unit/teleprompter/simba_edge_cases_test.exs",
    "/home/home/p/g/n/ds_ex/test/integration/error_recovery_test.exs",
    "/home/home/p/g/n/ds_ex/test/integration/beacon_instruction_generation_test.exs",
    "/home/home/p/g/n/ds_ex/test/integration/simba_example_test.exs",
    "/home/home/p/g/n/ds_ex/test/integration/client_manager_integration_test.exs",
    "/home/home/p/g/n/ds_ex/test/integration/beacon_readiness_test.exs",
    "/home/home/p/g/n/ds_ex/test/performance/memory_performance_test.exs",
    "/home/home/p/g/n/ds_ex/test/support/test_helpers.exs" ]

/-- The loop of `main`: skip missing paths, convert existing ones, and
accumulate (in input order) the paths whose conversion reported a change.
Returns the final filesystem and the `changed_files` list. -/
def runFiles : FS → List String → FS × List String
  | fs, [] => (fs, [])
  | fs, p :: ps =>
    match fsRead fs p with
    | none => runFiles fs ps
    | some _ =>
      let r := convertFile fs p
      let k := runFiles r.1 ps
      if r.2 then (k.1, p :: k.2) else k

/-- The lines printed by `main`: the summary line, then one indented line per
changed file. -/
def mainOutput (fs : FS) : List String :=
  let r := runFiles fs test_files
  ("Converted " ++ toString r.2.length ++ " files:") :: r.2.map (fun p => "  - " ++ p)

/-- The paths in `ps` whose on-disk content the Rewriter would change, in
input order (the specification of the report list). -/
def changedPaths (fs : FS) (ps : List String) : List String :=
  ps.filter fun p =>
    match fsRead fs p with
    | none => false
    | some c => convertText c != c

/-! ## Decomposition lemmas: every matcher consumes a prefix of its input -/

theorem takeWS_spec (s : List Char) : s = (takeWS s).1 ++ (takeWS s).2 := by
  induction s with
  | nil => rfl
  | cons c t ih =>
    simp only [takeWS]
    by_cases h : isWS c
    · simp [h, ← ih]
    · simp [h]

theorem stripLit_spec : ∀ (l s r : List Char), stripLit l s = some r → s = l ++ r
  | [], s, r, h => by simp [stripLit] at h; simp [h]
  | c :: l, [], r, h => by simp [stripLit] at h
  | c :: l, d :: s, r, h => by
    by_cases hcd : c = d
    · subst hcd
      simp only [stripLit, if_pos rfl] at h
      simpa using stripLit_spec l s r h
    · simp [stripLit, hcd] at h

theorem stripLit_append (l r : List Char) : stripLit l (l ++ r) = some r := by
  induction l with
  | nil => rfl
  | cons c l ih => simp [stripLit, ih]

theorem matchG4_spec (s g r : List Char) (h : matchG4 s = some (g, r)) : s = g ++ r := by
  match s with
  | [] => simp [matchG4] at h
  | c :: t =>
    simp only [matchG4] at h
    split at h
    · split at h
      · exact absurd h (by simp)
      · split at h
        next rest heq =>
          injection h with h1
          injection h1 with hg hr
          subst hg; subst hr
          have hdec := stripLit_spec _ _ _ heq
          conv_lhs => rw [takeWS_spec t]
          rw [hdec]
          simp
        next => exact absurd h (by simp)
    · exact absurd h (by simp)

theorem lazyG4_spec (s : List Char) :
    ∀ m g r, lazyG4 s = some (m, g, r) → s = m ++ g ++ r := by
  induction s with
  | nil => intro m g r h; simp [lazyG4] at h
  | cons c t ih =>
    intro m g r h
    simp only [lazyG4] at h
    split at h
    next g' r' heq =>
      injection h with h1
      injection h1 with hm h2
      injection h2 with hg hr
      subst hm; subst hg; subst hr
      simpa using matchG4_spec _ _ _ heq
    next =>
      split at h
      next m' g' r' heq =>
        injection h with h1
        injection h1 with hm h2
        injection h2 with hg hr
        subst hm; subst hg; subst hr
        simpa using ih m' g' r' heq
      next => exact absurd h (by simp)

theorem kwStrip_spec (s kw r : List Char) (h : kwStrip s = some (kw, r)) : s = kw ++ r := by
  simp only [kwStrip] at h
  split at h
  next r1 heq =>
    injection h with h1
    injection h1 with hkw hr
    subst hkw; subst hr
    exact stripLit_spec _ _ _ heq
  next =>
    split at h
    next r2 heq =>
      injection h with h1
      injection h1 with hkw hr
      subst hkw; subst hr
      exact stripLit_spec _ _ _ heq
    next =>
      split at h
      next r3 heq =>
        injection h with h1
        injection h1 with hkw hr
        subst hkw; subst hr
        exact stripLit_spec _ _ _ heq
      next => exact absurd h (by simp)

theorem matchG3G4_spec (s g3 g4 r : List Char) (h : matchG3G4 s = some (g3, g4, r)) :
    s = g3 ++ g4 ++ r := by
  match s with
  | [] => simp [matchG3G4] at h
  | c :: t =>
    simp only [matchG3G4] at h
    split at h
    · split at h
      · exact absurd h (by simp)
      · split at h
        next kw r2 heqk =>
          split at h
          next m g4' rest heq4 =>
            injection h with h1
            injection h1 with hg3 h2
            injection h2 with hg4 hr
            subst hg3; subst hg4; subst hr
            have hkw := kwStrip_spec _ _ _ heqk
            have hl4 := lazyG4_spec _ _ _ _ heq4
            conv_lhs => rw [takeWS_spec t]
            rw [hkw, hl4]
            simp
          next => exact absurd h (by simp)
        next => exact absurd h (by simp)
    · exact absurd h (by simp)

theorem lazyG3_spec (s : List Char) :
    ∀ g2 g3 g4 r, lazyG3 s = some (g2, g3, g4, r) → s = g2 ++ g3 ++ g4 ++ r := by
  induction s with
  | nil => intro g2 g3 g4 r h; simp [lazyG3] at h
  | cons c t ih =>
    intro g2 g3 g4 r h
    simp only [lazyG3] at h
    split at h
    next a b r' heq =>
      injection h with h1
      injection h1 with hm h2
      injection h2 with hg h3
      injection h3 with hb hr
      subst hm; subst hg; subst hb; subst hr
      simpa using matchG3G4_spec _ _ _ _ heq
    next =>
      split at h
      next a' b' c' r' heq =>
        injection h with h1
        injection h1 with hm h2
        injection h2 with hg h3
        injection h3 with hb hr
        subst hm; subst hg; subst hb; subst hr
        simpa using ih a' b' c' r' heq
      next => exact absurd h (by simp)

theorem matchAt_spec (s repl rest : List Char) (h : matchAt s = some (repl, rest)) :
    ∃ w g2 g3 g4, w ≠ [] ∧ s = w ++ tryDoNl ++ g2 ++ g3 ++ g4 ++ rest ∧ repl = g2 ++ g3 := by
  simp only [matchAt] at h
  split at h
  · exact absurd h (by simp)
  · split at h
    next r heqs =>
      split at h
      next g2 g3 g4 rest' heq3 =>
        injection h with h1
        injection h1 with hrepl hrest
        subst hrepl; subst hrest
        refine ⟨(takeWS s).1, g2, g3, g4, by assumption, ?_, rfl⟩
        have hd := stripLit_spec _ _ _ heqs
        have hl := lazyG3_spec _ _ _ _ _ heq3
        conv_lhs => rw [takeWS_spec s]
        rw [hd, hl]
        simp
      next => exact absurd h (by simp)
    next => exact absurd h (by simp)

theorem matchAt_length (s repl rest : List Char) (h : matchAt s = some (repl, rest)) :
    rest.length < s.length := by
  obtain ⟨w, g2, g3, g4, hw, hs, -⟩ := matchAt_spec s repl rest h
  rw [hs]
  simp [tryDoNl]
  omega

/-! ## Fuel irrelevance and the structure of the scan -/

theorem subTryF_nil (f : Nat) : subTryF f [] = [] := by
  cases f with
  | zero => rfl
  | succ f => rfl

theorem subTryF_congr_aux :
    ∀ (n : Nat) (s : List Char), s.length ≤ n →
      ∀ f g, s.length ≤ f → s.length ≤ g → subTryF f s = subTryF g s := by
  intro n
  induction n with
  | zero =>
    intro s hs f g _ _
    have : s = [] := List.eq_nil_of_length_eq_zero (Nat.le_zero.mp hs)
    subst this
    simp [subTryF_nil]
  | succ n ih =>
    intro s hs f g hf hg
    match s with
    | [] => simp [subTryF_nil]
    | c :: t =>
      cases f with
      | zero => exact absurd hf (by simp)
      | succ f' =>
        cases g with
        | zero => exact absurd hg (by simp)
        | succ g' =>
          simp only [subTryF]
          match hm : matchAt (c :: t) with
          | some (repl, rest) =>
            have hlen := matchAt_length _ _ _ hm
            simp only [List.length_cons] at hs hf hg hlen
            show repl ++ subTryF f' rest = repl ++ subTryF g' rest
            exact congrArg _ (ih rest (by omega) f' g' (by omega) (by omega))
          | none =>
            simp only [List.length_cons] at hs hf hg
            show c :: subTryF f' t = c :: subTryF g' t
            exact congrArg _ (ih t (by omega) f' g' (by omega) (by omega))

theorem subTryF_congr (s : List Char) (f g : Nat) (hf : s.length ≤ f) (hg : s.length ≤ g) :
    subTryF f s = subTryF g s :=
  subTryF_congr_aux s.length s (Nat.le_refl _) f g hf hg

theorem conv_eq_subTryF (s : List Char) (f : Nat) (hf : s.length ≤ f) :
    conv s = subTryF f s :=
  subTryF_congr s s.length f (Nat.le_refl _) hf

/-- A successful match at the head of the scan: the replacement is emitted and
scanning continues after the matched span. -/
theorem conv_matchAt (s repl rest : List Char) (h : matchAt s = some (repl, rest)) :
    conv s = repl ++ conv rest := by
  have hne : s ≠ [] := by
    intro e
    subst e
    exact absurd h (by simp [matchAt, takeWS])
  match s, hne with
  | c :: t, _ =>
    have hlen := matchAt_length _ _ _ h
    simp only [List.length_cons] at hlen
    show subTryF (c :: t).length (c :: t) = _
    simp only [List.length_cons, subTryF]
    rw [h]
    show repl ++ subTryF t.length rest = repl ++ subTryF rest.length rest
    exact congrArg _ (subTryF_congr rest t.length rest.length (by omega) (Nat.le_refl _))

/-- A non-whitespace character can never start a match (group 1 is `\s+`),
so the scan copies it. -/
theorem matchAt_not_ws (c : Char) (t : List Char) (h : isWS c = false) :
    matchAt (c :: t) = none := by
  simp [matchAt, takeWS, h]

theorem conv_not_ws (c : Char) (t : List Char) (h : isWS c = false) :
    conv (c :: t) = c :: conv t := by
  show subTryF (c :: t).length (c :: t) = _
  simp only [List.length_cons, subTryF]
  rw [matchAt_not_ws c t h]
  rfl

/-- Characters before the first whitespace are outside every matched span. -/
theorem conv_append_not_ws (p s : List Char) (hp : ∀ c ∈ p, isWS c = false) :
    conv (p ++ s) = p ++ conv s := by
  induction p with
  | nil => simp
  | cons c p ih =>
    have hc := hp c (by simp)
    have hp' : ∀ x ∈ p, isWS x = false := fun x hx => hp x (by simp [hx])
    simp only [List.cons_append]
    rw [conv_not_ws c (p ++ s) hc, ih hp']

/-! ## Texts with no `try do` occurrence are fixed points -/

theorem containsTryDo_suffix (a b : List Char) (h : containsTryDo b = true) :
    containsTryDo (a ++ b) = true := by
  induction a with
  | nil => simpa
  | cons c a ih =>
    simp only [List.cons_append, containsTryDo, List.append_eq]
    rw [ih]
    simp

theorem containsTryDo_here (x : List Char) : containsTryDo (tryDoLit ++ x) = true := by
  have e : tryDoLit ++ x = 't' :: ("ry do".data ++ x) := rfl
  rw [e]
  simp only [containsTryDo]
  rw [← e, stripLit_append]
  simp

theorem matchAt_none_of_not_contains (s : List Char) (h : containsTryDo s = false) :
    matchAt s = none := by
  match hm : matchAt s with
  | none => rfl
  | some (repl, rest) =>
    exfalso
    obtain ⟨w, g2, g3, g4, -, hs, -⟩ := matchAt_spec _ _ _ hm
    have e2 : w ++ tryDoNl ++ g2 ++ g3 ++ g4 ++ rest
        = w ++ (tryDoLit ++ ('\n' :: (g2 ++ g3 ++ g4 ++ rest))) := by
      rw [show tryDoNl = tryDoLit ++ ['\n'] from rfl]
      simp [List.append_assoc]
    have htrue : containsTryDo s = true := by
      rw [hs, e2]
      exact containsTryDo_suffix _ _ (containsTryDo_here _)
    rw [htrue] at h
    simp at h

theorem subTryF_of_not_contains :
    ∀ (f : Nat) (s : List Char), containsTryDo s = false → subTryF f s = s := by
  intro f
  induction f with
  | zero => intro s _; rfl
  | succ f ih =>
    intro s h
    match s with
    | [] => exact subTryF_nil _
    | c :: t =>
      have ht : containsTryDo t = false := by
        simp only [containsTryDo, Bool.or_eq_false_iff] at h
        exact h.2
      simp only [subTryF]
      rw [matchAt_none_of_not_contains _ h]
      show c :: subTryF f t = c :: t
      rw [ih t ht]

theorem conv_of_not_contains (s : List Char) (h : containsTryDo s = false) : conv s = s :=
  subTryF_of_not_contains _ s h

/-! ## Filesystem lemmas -/

theorem fsRead_fsWrite_self (fs : FS) (p c v : String) (h : fsRead fs p = some c) :
    fsRead (fsWrite fs p v) p = some v := by
  induction fs with
  | nil => simp [fsRead] at h
  | cons kv t ih =>
    obtain ⟨k, w⟩ := kv
    simp only [fsRead] at h
    simp only [fsWrite]
    by_cases hkp : k = p
    · rw [if_pos hkp]
      simp [fsRead, hkp]
    · rw [if_neg hkp]
      have hpk : ¬p = k := fun e => hkp e.symm
      rw [if_neg hpk] at h
      simp only [fsRead, if_neg hpk]
      exact ih h

theorem fsRead_fsWrite_other (fs : FS) (p q v : String) (h : q ≠ p) :
    fsRead (fsWrite fs p v) q = fsRead fs q := by
  induction fs with
  | nil => rfl
  | cons kv t ih =>
    obtain ⟨k, w⟩ := kv
    simp only [fsWrite]
    by_cases hkp : k = p
    · rw [if_pos hkp]
      have hqk : ¬q = k := fun e => h (e.trans hkp)
      simp only [fsRead, if_neg hqk]
      exact ih
    · rw [if_neg hkp]
      simp only [fsRead]
      by_cases hqk : q = k
      · simp [hqk]
      · simp only [if_neg hqk]
        exact ih

theorem fsRead_fsWrite_none (fs : FS) (p q v : String) (h : fsRead fs q = none) :
    fsRead (fsWrite fs p v) q = none := by
  induction fs with
  | nil => rfl
  | cons kv t ih =>
    obtain ⟨k, w⟩ := kv
    simp only [fsRead] at h
    by_cases hqk : q = k
    · simp [hqk] at h
    · rw [if_neg hqk] at h
      simp only [fsWrite]
      by_cases hkp : k = p
      · rw [if_pos hkp]
        simp only [fsRead, if_neg hqk]
        exact ih h
      · rw [if_neg hkp]
        simp only [fsRead, if_neg hqk]
        exact ih h

/-! ## Driver lemmas -/

theorem changedPaths_congr (fs fs' : FS) (ps : List String)
    (h : ∀ q ∈ ps, fsRead fs' q = fsRead fs q) :
    changedPaths fs' ps = changedPaths fs ps := by
  induction ps with
  | nil => rfl
  | cons p ps ih =>
    simp only [changedPaths, List.filter_cons]
    rw [h p (by simp)]
    rw [show List.filter _ ps = changedPaths fs' ps from rfl,
        show List.filter _ ps = changedPaths fs ps from rfl,
        ih (fun q hq => h q (by simp [hq]))]

theorem runFiles_report (ps : List String) :
    ∀ fs, ps.Pairwise (· ≠ ·) → (runFiles fs ps).2 = changedPaths fs ps := by
  induction ps with
  | nil => intro fs _; rfl
  | cons p ps ih =>
    intro fs hp
    have hps := (List.pairwise_cons.mp hp).2
    have hhead := (List.pairwise_cons.mp hp).1
    simp only [runFiles]
    match hr : fsRead fs p with
    | none =>
      simp only [changedPaths, List.filter_cons, hr]
      show (runFiles fs ps).2 = changedPaths fs ps
      exact ih fs hps
    | some c =>
      simp only [convertFile, hr]
      by_cases hc : convertText c = c
      · rw [if_pos hc]
        show (runFiles fs ps).2 = changedPaths fs (p :: ps)
        rw [ih fs hps]
        simp only [changedPaths, List.filter_cons, hr]
        have : (convertText c != c) = false := by simp [hc]
        rw [this]
        rfl
      · rw [if_neg hc]
        show (p :: (runFiles (fsWrite fs p (convertText c)) ps).2) = changedPaths fs (p :: ps)
        rw [ih _ hps]
        rw [changedPaths_congr fs (fsWrite fs p (convertText c)) ps
          (fun q hq => fsRead_fsWrite_other fs p q (convertText c) (hhead q hq).symm)]
        simp only [changedPaths, List.filter_cons, hr]
        have : (convertText c != c) = true := by simp [hc]
        rw [this]
        rfl

theorem runFiles_read_none (ps : List String) :
    ∀ fs q, fsRead fs q = none → fsRead (runFiles fs ps).1 q = none := by
  induction ps with
  | nil => intro fs q h; exact h
  | cons p ps ih =>
    intro fs q h
    simp only [runFiles]
    match hr : fsRead fs p with
    | none => exact ih fs q h
    | some c =>
      simp only [convertFile, hr]
      by_cases hc : convertText c = c
      · rw [if_pos hc]
        show fsRead (runFiles fs ps).1 q = none
        exact ih fs q h
      · rw [if_neg hc]
        show fsRead (runFiles (fsWrite fs p (convertText c)) ps).1 q = none
        exact ih _ q (fsRead_fsWrite_none fs p q _ h)

theorem runFiles_read_not_mem (ps : List String) :
    ∀ fs q, q ∉ ps → fsRead (runFiles fs ps).1 q = fsRead fs q := by
  induction ps with
  | nil => intro fs q _; rfl
  | cons p ps ih =>
    intro fs q hq
    have hqp : q ≠ p := fun e => hq (by simp [e])
    have hqs : q ∉ ps := fun e => hq (by simp [e])
    simp only [runFiles]
    match hr : fsRead fs p with
    | none => exact ih fs q hqs
    | some c =>
      simp only [convertFile, hr]
      by_cases hc : convertText c = c
      · rw [if_pos hc]
        show fsRead (runFiles fs ps).1 q = fsRead fs q
        exact ih fs q hqs
      · rw [if_neg hc]
        show fsRead (runFiles (fsWrite fs p (convertText c)) ps).1 q = fsRead fs q
        rw [ih _ q hqs]
        exact fsRead_fsWrite_other fs p q _ hqp

theorem runFiles_read_final (ps : List String) :
    ∀ fs q c, ps.Pairwise (· ≠ ·) → q ∈ ps → fsRead fs q = some c →
      fsRead (runFiles fs ps).1 q = some (convertText c) := by
  induction ps with
  | nil => intro fs q c _ hq _; simp at hq
  | cons p ps ih =>
    intro fs q c hp hq hr
    have hps := (List.pairwise_cons.mp hp).2
    have hhead := (List.pairwise_cons.mp hp).1
    simp only [runFiles]
    by_cases hqp : q = p
    · subst hqp
      rw [hr]
      simp only [convertFile, hr]
      have hnm : q ∉ ps := fun e => (hhead q e) rfl
      by_cases hc : convertText c = c
      · rw [if_pos hc]
        show fsRead (runFiles fs ps).1 q = some (convertText c)
        rw [runFiles_read_not_mem ps fs q hnm, hr, hc]
      · rw [if_neg hc]
        show fsRead (runFiles (fsWrite fs q (convertText c)) ps).1 q = some (convertText c)
        rw [runFiles_read_not_mem ps _ q hnm]
        exact fsRead_fsWrite_self fs q c _ hr
    · have hqs : q ∈ ps := by
        rcases List.mem_cons.mp hq with h | h
        · exact absurd h hqp
        · exact h
      match hr0 : fsRead fs p with
      | none => exact ih fs q c hps hqs hr
      | some c0 =>
        simp only [convertFile, hr0]
        by_cases hc : convertText c0 = c0
        · rw [if_pos hc]
          show fsRead (runFiles fs ps).1 q = some (convertText c)
          exact ih fs q c hps hqs hr
        · rw [if_neg hc]
          show fsRead (runFiles (fsWrite fs p (convertText c0)) ps).1 q = some (convertText c)
          apply ih _ q c hps hqs
          rw [fsRead_fsWrite_other fs p q _ hqp]
          exact hr

/-! ## Symbolic evaluation of the matchers

These lemmas evaluate the matchers on inputs that are concrete except for
whitespace runs, lazily-skipped segments, and the trailing remainder. -/

theorem takeWS_all_ws (w : List Char) (c : Char) (t : List Char)
    (hw : ∀ x ∈ w, isWS x = true) (hc : isWS c = false) :
    takeWS (w ++ c :: t) = (w, c :: t) := by
  induction w with
  | nil => simp [takeWS, hc]
  | cons a w ih =>
    have ha := hw a (by simp)
    have hw' : ∀ x ∈ w, isWS x = true := fun x hx => hw x (by simp [hx])
    simp only [List.cons_append, takeWS, ha, if_true, List.append_eq]
    rw [ih hw']

theorem matchG4_not_nl (c : Char) (t : List Char) (hc : ¬c = '\n') :
    matchG4 (c :: t) = none := by
  simp [matchG4, hc]

theorem matchG3G4_not_nl (c : Char) (t : List Char) (hc : ¬c = '\n') :
    matchG3G4 (c :: t) = none := by
  simp [matchG3G4, hc]

theorem lazyG4_of_matchG4 (c : Char) (t g r : List Char)
    (h : matchG4 (c :: t) = some (g, r)) : lazyG4 (c :: t) = some ([], g, r) := by
  simp only [lazyG4, h]

theorem lazyG3_of_matchG3G4 (c : Char) (t g3 g4 r : List Char)
    (h : matchG3G4 (c :: t) = some (g3, g4, r)) : lazyG3 (c :: t) = some ([], g3, g4, r) := by
  simp only [lazyG3, h]

theorem lazyG4_append (u : List Char) (s : List Char) (hu : ∀ x ∈ u, ¬x = '\n') :
    lazyG4 (u ++ s) = (lazyG4 s).map (fun x => (u ++ x.1, x.2)) := by
  induction u with
  | nil =>
    simp only [List.nil_append]
    match h : lazyG4 s with
    | some (m, g, r) => simp
    | none => simp
  | cons a u ih =>
    have ha := hu a (by simp)
    have hu' : ∀ x ∈ u, ¬x = '\n' := fun x hx => hu x (by simp [hx])
    simp only [List.cons_append, lazyG4, matchG4_not_nl a _ ha, List.append_eq]
    rw [ih hu']
    match h : lazyG4 s with
    | some (m, g, r) => simp
    | none => simp

theorem lazyG3_append (u : List Char) (s : List Char) (hu : ∀ x ∈ u, ¬x = '\n') :
    lazyG3 (u ++ s) = (lazyG3 s).map (fun x => (u ++ x.1, x.2)) := by
  induction u with
  | nil =>
    simp only [List.nil_append]
    match h : lazyG3 s with
    | some (g2, g3, g4, r) => simp
    | none => simp
  | cons a u ih =>
    have ha := hu a (by simp)
    have hu' : ∀ x ∈ u, ¬x = '\n' := fun x hx => hu x (by simp [hx])
    simp only [List.cons_append, lazyG3, matchG3G4_not_nl a _ ha, List.append_eq]
    rw [ih hu']
    match h : lazyG3 s with
    | some (g2, g3, g4, r) => simp
    | none => simp

theorem matchG4_decomp (w r : List Char) (hw : ∀ x ∈ w, isWS x = true) (hne : w ≠ []) :
    matchG4 ('\n' :: (w ++ (endLit ++ r))) = some ('\n' :: (w ++ endLit), r) := by
  have e : w ++ (endLit ++ r) = w ++ 'e' :: ("nd".data ++ r) := rfl
  simp only [matchG4, if_pos rfl, e,
    takeWS_all_ws w 'e' ("nd".data ++ r) hw (by simp [isWS])]
  rw [if_neg hne]
  have e2 : ('e' :: ("nd".data ++ r)) = endLit ++ r := rfl
  rw [e2, stripLit_append]
  simp

theorem matchG3G4_decomp (w r2 m g4 rest : List Char)
    (hw : ∀ x ∈ w, isWS x = true) (hne : w ≠ [])
    (h4 : lazyG4 r2 = some (m, g4, rest)) :
    matchG3G4 ('\n' :: (w ++ (rescueLit ++ r2))) = some ('\n' :: (w ++ (rescueLit ++ m)), g4, rest) := by
  have e : w ++ (rescueLit ++ r2) = w ++ 'r' :: ("escue".data ++ r2) := rfl
  simp only [matchG3G4, if_pos rfl, e,
    takeWS_all_ws w 'r' ("escue".data ++ r2) hw (by simp [isWS])]
  rw [if_neg hne]
  have e2 : ('r' :: ("escue".data ++ r2)) = rescueLit ++ r2 := rfl
  rw [e2]
  have hk : kwStrip (rescueLit ++ r2) = some (rescueLit, r2) := by
    simp only [kwStrip, stripLit_append]
  rw [hk]
  dsimp only
  rw [h4]
  simp [List.append_assoc]

theorem matchAt_decomp (w r g2 g3 g4 rest : List Char)
    (hw : ∀ x ∈ w, isWS x = true) (hne : w ≠ [])
    (h3 : lazyG3 r = some (g2, g3, g4, rest)) :
    matchAt (w ++ (tryDoNl ++ r)) = some (g2 ++ g3, rest) := by
  have e : w ++ (tryDoNl ++ r) = w ++ 't' :: ("ry do\n".data ++ r) := rfl
  simp only [matchAt, e, takeWS_all_ws w 't' ("ry do\n".data ++ r) hw (by simp [isWS])]
  rw [if_neg hne]
  have e2 : ('t' :: ("ry do\n".data ++ r)) = tryDoNl ++ r := rfl
  rw [e2, stripLit_append]
  dsimp only
  rw [h3]

theorem lazyG4_step (c : Char) (t : List Char) (h : matchG4 (c :: t) = none) :
    lazyG4 (c :: t) = (lazyG4 t).map (fun x => (c :: x.1, x.2)) := by
  simp only [lazyG4, h]
  match h2 : lazyG4 t with
  | some (m, g, r) => simp
  | none => simp

theorem lazyG3_step (c : Char) (t : List Char) (h : matchG3G4 (c :: t) = none) :
    lazyG3 (c :: t) = (lazyG3 t).map (fun x => (c :: x.1, x.2)) := by
  simp only [lazyG3, h]
  match h2 : lazyG3 t with
  | some (g2, g3, g4, r) => simp
  | none => simp

/-! ## The claims -/

/-- C1 (counterexample).  The claim asserts that a rewrite deletes exactly the
block-open line and the terminator line and that all whitespace outside the
matched spans — in particular the newline ending the line preceding the
block-open line — is unchanged.  In fact group 1 (`\s+`) of the pattern
extends the matched span backwards over the whole whitespace run preceding
`try do`, and the replacement drops group 1, so that newline is deleted: on
`"x\n    try do\n      b()\n    rescue\n      e\n    end\n"` the output is
`"x      b()\n    rescue\n      e\n"`, not the claimed
`"x\n      b()\n    rescue\n      e\n"`. -/
theorem preceding_newline_deleted :
    convertText "x\n    try do\n      b()\n    rescue\n      e\n    end\n"
        = "x      b()\n    rescue\n      e\n"
    ∧ convertText "x\n    try do\n      b()\n    rescue\n      e\n    end\n"
        ≠ "x\n      b()\n    rescue\n      e\n" := by
  decide

/-- C1 (amended).  For any text `p ++ block ++ t` in which `p` contains no
whitespace character and `block` is a well-formed occurrence
`"\n    try do\n      b()\n    rescue\n      e\n    end"`, the Rewriter deletes
the whitespace run preceding the block-open marker (here the newline ending
the preceding line plus the indentation), the block-open line and the
terminator line, keeps the body and the handler-clause span verbatim, leaves
every character of `p` unchanged, and continues scanning the remainder `t`
unchanged except for further matches. -/
theorem match_span_rewrite (p t : List Char) (hp : ∀ c ∈ p, isWS c = false) :
    conv (p ++ ("\n    try do\n      b()\n    rescue\n      e\n    end".data ++ t))
      = p ++ ("      b()\n    rescue\n      e".data ++ conv t) := by
  have hG4 : matchG4 ('\n' :: ("    ".data ++ (endLit ++ t)))
      = some ('\n' :: ("    ".data ++ endLit), t) :=
    matchG4_decomp "    ".data t (by decide) (by decide)
  have hL4a : lazyG4 ('\n' :: ("    ".data ++ (endLit ++ t)))
      = some ([], '\n' :: ("    ".data ++ endLit), t) :=
    lazyG4_of_matchG4 _ _ _ _ hG4
  have hL4b : lazyG4 ("      e".data ++ ('\n' :: ("    ".data ++ (endLit ++ t))))
      = some ("      e".data, '\n' :: ("    ".data ++ endLit), t) := by
    rw [lazyG4_append "      e".data _ (by decide), hL4a]
    simp
  have hfail : matchG4 ('\n' :: ("      e".data ++ ('\n' :: ("    ".data ++ (endLit ++ t)))))
      = none := by
    have e1 : "      e".data ++ ('\n' :: ("    ".data ++ (endLit ++ t)))
        = "      ".data ++ ('e' :: ('\n' :: ("    ".data ++ (endLit ++ t)))) := rfl
    simp only [matchG4, e1,
      takeWS_all_ws "      ".data 'e' ('\n' :: ("    ".data ++ (endLit ++ t))) (by decide) (by decide)]
    simp [stripLit, endLit]
  have hL4c : lazyG4 ('\n' :: ("      e".data ++ ('\n' :: ("    ".data ++ (endLit ++ t)))))
      = some ('\n' :: "      e".data, '\n' :: ("    ".data ++ endLit), t) := by
    rw [lazyG4_step _ _ hfail, hL4b]
    simp
  have hG3 : matchG3G4 ('\n' :: ("    ".data ++ (rescueLit ++
        ('\n' :: ("      e".data ++ ('\n' :: ("    ".data ++ (endLit ++ t))))))))
      = some ('\n' :: ("    ".data ++ (rescueLit ++ ('\n' :: "      e".data))),
          '\n' :: ("    ".data ++ endLit), t) :=
    matchG3G4_decomp "    ".data _ _ _ _ (by decide) (by decide) hL4c
  have hL3a : lazyG3 ('\n' :: ("    ".data ++ (rescueLit ++
        ('\n' :: ("      e".data ++ ('\n' :: ("    ".data ++ (endLit ++ t))))))))
      = some ([], '\n' :: ("    ".data ++ (rescueLit ++ ('\n' :: "      e".data))),
          '\n' :: ("    ".data ++ endLit), t) :=
    lazyG3_of_matchG3G4 _ _ _ _ _ hG3
  have hL3b : lazyG3 ("      b()".data ++ ('\n' :: ("    ".data ++ (rescueLit ++
        ('\n' :: ("      e".data ++ ('\n' :: ("    ".data ++ (endLit ++ t)))))))))
      = some ("      b()".data,
          '\n' :: ("    ".data ++ (rescueLit ++ ('\n' :: "      e".data))),
          '\n' :: ("    ".data ++ endLit), t) := by
    rw [lazyG3_append "      b()".data _ (by decide), hL3a]
    simp
  have hMA : matchAt ("\n    ".data ++ (tryDoNl ++ ("      b()".data ++ ('\n' :: ("    ".data ++ (rescueLit ++
        ('\n' :: ("      e".data ++ ('\n' :: ("    ".data ++ (endLit ++ t)))))))))))
      = some ("      b()".data ++ ('\n' :: ("    ".data ++ (rescueLit ++ ('\n' :: "      e".data)))), t) :=
    matchAt_decomp "\n    ".data _ _ _ _ _ (by decide) (by decide) hL3b
  have e0 : "\n    try do\n      b()\n    rescue\n      e\n    end".data ++ t
      = "\n    ".data ++ (tryDoNl ++ ("      b()".data ++ ('\n' :: ("    ".data ++ (rescueLit ++
        ('\n' :: ("      e".data ++ ('\n' :: ("    ".data ++ (endLit ++ t)))))))))) := rfl
  rw [conv_append_not_ws p _ hp, e0, conv_matchAt _ _ _ hMA]
  rw [show ("      b()".data ++ ('\n' :: ("    ".data ++ (rescueLit ++ ('\n' :: "      e".data)))) : List Char)
        = "      b()\n    rescue\n      e".data from rfl]

/-- Witness for `match_span_rewrite` at `p = "x"`, `t = "\n"`. -/
theorem match_span_rewrite_witness :
    (∀ c ∈ ("x".data : List Char), isWS c = false)
    ∧ conv ("x".data ++ ("\n    try do\n      b()\n    rescue\n      e\n    end".data ++ "\n".data))
        = "x".data ++ ("      b()\n    rescue\n      e".data ++ conv "\n".data) :=
  ⟨by decide, match_span_rewrite "x".data "\n".data (by decide)⟩

/-- C2: on the exact five-line input
`"    try do\n      do_work()\n    rescue\n      e -> handle(e)\n    end"`
(the block-open line being the first line), the Rewriter returns exactly the
three-line text `"      do_work()\n    rescue\n      e -> handle(e)"` and
reports changed = true. -/
theorem single_block_rewrite :
    convertText "    try do\n      do_work()\n    rescue\n      e -> handle(e)\n    end"
        = "      do_work()\n    rescue\n      e -> handle(e)"
    ∧ convertChanged "    try do\n      do_work()\n    rescue\n      e -> handle(e)\n    end"
        = true := by
  decide

/-- C3 (counterexample).  The claim asserts idempotence for every input.  On a
nested block the rewrite of
`"a\n  try do\n  try do\n    b\n  rescue\n    e\n  end\n  rescue\n    f\n  end\n"`
produces a text that still contains a whitespace-preceded `try do` with a later
handler line and terminator, so a second application changes it again and
reports changed = true. -/
theorem nested_not_idempotent :
    convertText (convertText
        "a\n  try do\n  try do\n    b\n  rescue\n    e\n  end\n  rescue\n    f\n  end\n")
      ≠ convertText
        "a\n  try do\n  try do\n    b\n  rescue\n    e\n  end\n  rescue\n    f\n  end\n"
    ∧ convertChanged (convertText
        "a\n  try do\n  try do\n    b\n  rescue\n    e\n  end\n  rescue\n    f\n  end\n")
      = true := by
  decide

/-- C3 (amended).  Applying the Rewriter a second time to its own output
yields that output again with changed = false whenever the first output no
longer contains the block-open marker `try do` — in particular after any
clean, non-nested rewrite.  (On nested same-shape blocks the pattern can
recur, and the second application can change the text again, see
`nested_not_idempotent`.) -/
theorem idempotent_when_marker_gone (s : String)
    (h : containsTryDo (convertText s).data = false) :
    convertText (convertText s) = convertText s
    ∧ convertChanged (convertText s) = false := by
  have h1 : conv (convertText s).data = (convertText s).data := conv_of_not_contains _ h
  have h2 : convertText (convertText s) = convertText s := by
    show String.mk (conv (convertText s).data) = convertText s
    rw [h1]
  exact ⟨h2, by simp [convertChanged, h2]⟩

/-- Witness for `idempotent_when_marker_gone` on the single-block input of C2. -/
theorem idempotent_when_marker_gone_witness :
    containsTryDo (convertText
        "    try do\n      do_work()\n    rescue\n      e -> handle(e)\n    end").data = false
    ∧ (convertText (convertText
          "    try do\n      do_work()\n    rescue\n      e -> handle(e)\n    end")
        = convertText "    try do\n      do_work()\n    rescue\n      e -> handle(e)\n    end"
      ∧ convertChanged (convertText
          "    try do\n      do_work()\n    rescue\n      e -> handle(e)\n    end") = false) :=
  ⟨by decide, idempotent_when_marker_gone _ (by decide)⟩

/-- C4: on a block whose body contains a nested instance of the same
block-open/terminator pattern, the lazy captures stop at the first inner
handler marker and the first matching terminator, so the rewrite deletes the
inner `end` line and leaves the outer `end` line in place (the output below
still ends with the outer `"  rescue\n    f\n  end\n"` while the inner
`"  end"` line between `e` and the outer `rescue` is gone, and the outer
`try do` line survives as part of the captured body).  Stated for an arbitrary
non-whitespace prefix `p`. -/
theorem nested_inner_terminator_removed (p : List Char) (hp : ∀ c ∈ p, isWS c = false) :
    conv (p ++ "\n  try do\n  try do\n    b\n  rescue\n    e\n  end\n  rescue\n    f\n  end\n".data)
      = p ++ "  try do\n    b\n  rescue\n    e\n  rescue\n    f\n  end\n".data := by
  rw [conv_append_not_ws p _ hp]
  exact congrArg _ (by decide)

/-- Witness for `nested_inner_terminator_removed` at `p = "a"`. -/
theorem nested_inner_terminator_removed_witness :
    (∀ c ∈ ("a".data : List Char), isWS c = false)
    ∧ conv ("a".data ++ "\n  try do\n  try do\n    b\n  rescue\n    e\n  end\n  rescue\n    f\n  end\n".data)
        = "a".data ++ "  try do\n    b\n  rescue\n    e\n  rescue\n    f\n  end\n".data :=
  ⟨by decide, nested_inner_terminator_removed "a".data (by decide)⟩

/-- C9: a text containing no occurrence of the block-open marker `try do` is
returned unchanged with changed = false. -/
theorem noop_without_marker (s : String) (h : containsTryDo s.data = false) :
    convertText s = s ∧ convertChanged s = false := by
  have h1 : conv s.data = s.data := conv_of_not_contains _ h
  have h2 : convertText s = s := by
    show String.mk (conv s.data) = s
    rw [h1]
  exact ⟨h2, by simp [convertChanged, h2]⟩

/-- Witness for `noop_without_marker` on a text with handler and terminator
keywords but no `try do`. -/
theorem noop_without_marker_witness :
    containsTryDo ("defmodule X do\n  rescue\nend\n".data) = false
    ∧ (convertText "defmodule X do\n  rescue\nend\n" = "defmodule X do\n  rescue\nend\n"
      ∧ convertChanged "defmodule X do\n  rescue\nend\n" = false) :=
  ⟨by decide, noop_without_marker _ (by decide)⟩

/-- C5 (counterexample).  The claim asserts that a handler clause indented
inconsistently with the block is not matched and that only a terminator at
the same or lower indentation than the block is accepted.  The pattern checks
no indentation relationship at all: with `try do` indented by one space, a
`rescue` indented by five and an `end` indented by seven, the block is still
matched and rewritten. -/
theorem indentation_not_checked :
    convertText "x\n try do\n  b\n     rescue\n       end" = "x  b\n     rescue"
    ∧ convertText "x\n try do\n  b\n     rescue\n       end"
        ≠ "x\n try do\n  b\n     rescue\n       end" := by
  decide

theorem spaces_ws (n : Nat) : ∀ x ∈ spaces n, isWS x = true := by
  intro x hx
  rw [List.eq_of_mem_replicate hx]
  decide

theorem spaces_ne_nil (n : Nat) (h : 1 ≤ n) : spaces n ≠ [] := by
  simp [spaces]
  omega

/-- C5 (amended).  The handler-clause and terminator markers are accepted at
any indentation of at least one whitespace character, regardless of the
block-open marker's indentation: for all `n1, n2, n3 ≥ 1` the block
`indentBlock n1 n2 n3 t` is matched and rewritten to its body plus handler
span, with scanning continuing on `t`.  (Only a marker at column zero fails
to match, since `\s+` requires at least one whitespace character.) -/
theorem markers_any_indentation (n1 n2 n3 : Nat) (t : List Char)
    (h1 : 1 ≤ n1) (h2 : 1 ≤ n2) (h3 : 1 ≤ n3) :
    conv (indentBlock n1 n2 n3 t)
      = "  b".data ++ ('\n' :: (spaces n2 ++ (rescueLit ++ " r".data))) ++ conv t := by
  have hG4 : matchG4 ('\n' :: (spaces n3 ++ (endLit ++ t)))
      = some ('\n' :: (spaces n3 ++ endLit), t) :=
    matchG4_decomp (spaces n3) t (spaces_ws n3) (spaces_ne_nil n3 h3)
  have hL4a : lazyG4 ('\n' :: (spaces n3 ++ (endLit ++ t)))
      = some ([], '\n' :: (spaces n3 ++ endLit), t) :=
    lazyG4_of_matchG4 _ _ _ _ hG4
  have hL4b : lazyG4 (" r".data ++ ('\n' :: (spaces n3 ++ (endLit ++ t))))
      = some (" r".data, '\n' :: (spaces n3 ++ endLit), t) := by
    rw [lazyG4_append " r".data _ (by decide), hL4a]
    simp
  have hG3 : matchG3G4 ('\n' :: (spaces n2 ++ (rescueLit ++
        (" r".data ++ ('\n' :: (spaces n3 ++ (endLit ++ t)))))))
      = some ('\n' :: (spaces n2 ++ (rescueLit ++ " r".data)),
          '\n' :: (spaces n3 ++ endLit), t) :=
    matchG3G4_decomp (spaces n2) _ _ _ _ (spaces_ws n2) (spaces_ne_nil n2 h2) hL4b
  have hL3a : lazyG3 ('\n' :: (spaces n2 ++ (rescueLit ++
        (" r".data ++ ('\n' :: (spaces n3 ++ (endLit ++ t)))))))
      = some ([], '\n' :: (spaces n2 ++ (rescueLit ++ " r".data)),
          '\n' :: (spaces n3 ++ endLit), t) :=
    lazyG3_of_matchG3G4 _ _ _ _ _ hG3
  have hL3b : lazyG3 ("  b".data ++ ('\n' :: (spaces n2 ++ (rescueLit ++
        (" r".data ++ ('\n' :: (spaces n3 ++ (endLit ++ t))))))))
      = some ("  b".data, '\n' :: (spaces n2 ++ (rescueLit ++ " r".data)),
          '\n' :: (spaces n3 ++ endLit), t) := by
    rw [lazyG3_append "  b".data _ (by decide), hL3a]
    simp
  have hMA : matchAt (spaces n1 ++ (tryDoNl ++ ("  b".data ++ ('\n' :: (spaces n2 ++ (rescueLit ++
        (" r".data ++ ('\n' :: (spaces n3 ++ (endLit ++ t))))))))))
      = some ("  b".data ++ ('\n' :: (spaces n2 ++ (rescueLit ++ " r".data))), t) :=
    matchAt_decomp (spaces n1) _ _ _ _ _ (spaces_ws n1) (spaces_ne_nil n1 h1) hL3b
  show conv (spaces n1 ++ (tryDoNl ++ ("  b".data ++ ('\n' :: (spaces n2 ++ (rescueLit ++
        (" r".data ++ ('\n' :: (spaces n3 ++ (endLit ++ t)))))))))) = _
  rw [conv_matchAt _ _ _ hMA]

/-- Witness for `markers_any_indentation` with the mismatched indentations
1, 5 and 7. -/
theorem markers_any_indentation_witness :
    conv (indentBlock 1 5 7 [])
      = "  b".data ++ ('\n' :: (spaces 5 ++ (rescueLit ++ " r".data))) ++ conv [] :=
  markers_any_indentation 1 5 7 [] (by decide) (by decide) (by decide)

/-- C10: the handler-clause and terminator markers are bare literal prefixes
with no word-boundary check.  For any newline-free `ds`, a line reading
`"  rescue" ++ ds` (for example `"  rescued = 1"`) terminates the lazy body
capture as the handler clause, and a line starting `"  end" ++ t`
(for example `"  endpoint"`) is accepted as the block terminator — the match
consumes only the three characters `end` of it, and scanning resumes on the
rest `t` (so for `"  endpoint"` the residue `"point"` is glued to the
replacement).  Stated for an arbitrary non-whitespace prefix `p`. -/
theorem marker_prefix_no_word_boundary (p ds t : List Char)
    (hp : ∀ c ∈ p, isWS c = false) (hds : ∀ x ∈ ds, ¬x = '\n') :
    conv (p ++ ("\n try do\n  b\n  rescue".data ++ (ds ++ ("\n  end".data ++ t))))
      = p ++ ("  b\n  rescue".data ++ (ds ++ conv t)) := by
  have hG4 : matchG4 ('\n' :: ("  ".data ++ (endLit ++ t)))
      = some ('\n' :: ("  ".data ++ endLit), t) :=
    matchG4_decomp "  ".data t (by decide) (by decide)
  have hL4a : lazyG4 ('\n' :: ("  ".data ++ (endLit ++ t)))
      = some ([], '\n' :: ("  ".data ++ endLit), t) :=
    lazyG4_of_matchG4 _ _ _ _ hG4
  have hL4b : lazyG4 (ds ++ ('\n' :: ("  ".data ++ (endLit ++ t))))
      = some (ds, '\n' :: ("  ".data ++ endLit), t) := by
    rw [lazyG4_append ds _ hds, hL4a]
    simp
  have hG3 : matchG3G4 ('\n' :: ("  ".data ++ (rescueLit ++
        (ds ++ ('\n' :: ("  ".data ++ (endLit ++ t)))))))
      = some ('\n' :: ("  ".data ++ (rescueLit ++ ds)),
          '\n' :: ("  ".data ++ endLit), t) :=
    matchG3G4_decomp "  ".data _ _ _ _ (by decide) (by decide) hL4b
  have hL3a : lazyG3 ('\n' :: ("  ".data ++ (rescueLit ++
        (ds ++ ('\n' :: ("  ".data ++ (endLit ++ t)))))))
      = some ([], '\n' :: ("  ".data ++ (rescueLit ++ ds)),
          '\n' :: ("  ".data ++ endLit), t) :=
    lazyG3_of_matchG3G4 _ _ _ _ _ hG3
  have hL3b : lazyG3 ("  b".data ++ ('\n' :: ("  ".data ++ (rescueLit ++
        (ds ++ ('\n' :: ("  ".data ++ (endLit ++ t))))))))
      = some ("  b".data, '\n' :: ("  ".data ++ (rescueLit ++ ds)),
          '\n' :: ("  ".data ++ endLit), t) := by
    rw [lazyG3_append "  b".data _ (by decide), hL3a]
    simp
  have hMA : matchAt ("\n ".data ++ (tryDoNl ++ ("  b".data ++ ('\n' :: ("  ".data ++ (rescueLit ++
        (ds ++ ('\n' :: ("  ".data ++ (endLit ++ t))))))))))
      = some ("  b".data ++ ('\n' :: ("  ".data ++ (rescueLit ++ ds))), t) :=
    matchAt_decomp "\n ".data _ _ _ _ _ (by decide) (by decide) hL3b
  have e0 : "\n try do\n  b\n  rescue".data ++ (ds ++ ("\n  end".data ++ t))
      = "\n ".data ++ (tryDoNl ++ ("  b".data ++ ('\n' :: ("  ".data ++ (rescueLit ++
          (ds ++ ('\n' :: ("  ".data ++ (endLit ++ t))))))))) := rfl
  rw [conv_append_not_ws p _ hp, e0, conv_matchAt _ _ _ hMA]
  simp [List.append_assoc, rescueLit]

/-- Witness for `marker_prefix_no_word_boundary` at `p = "x"`,
`ds = "d = 1"` (handler line `"  rescued = 1"`), `t = "point"`
(terminator line `"  endpoint"`). -/
theorem marker_prefix_no_word_boundary_witness :
    (∀ c ∈ ("x".data : List Char), isWS c = false)
    ∧ (∀ x ∈ ("d = 1".data : List Char), ¬x = '\n')
    ∧ conv ("x".data ++ ("\n try do\n  b\n  rescue".data ++ ("d = 1".data ++ ("\n  end".data ++ "point".data))))
        = "x".data ++ ("  b\n  rescue".data ++ ("d = 1".data ++ conv "point".data)) :=
  ⟨by decide, by decide,
    marker_prefix_no_word_boundary "x".data "d = 1".data "point".data (by decide) (by decide)⟩

/-- C6: `convert_try_blocks` writes back, and reports changed = true, exactly
when the rewritten text differs from the text read; its changed flag is the
comparison of new content against original content; when the flag is false
the filesystem is left untouched; and after the call the file holds the
rewritten content (which in the unchanged case equals the original). -/
theorem convertFile_write_iff (fs : FS) (p c : String) (h : fsRead fs p = some c) :
    (convertFile fs p).2 = (convertText c != c)
    ∧ fsRead (convertFile fs p).1 p = some (convertText c)
    ∧ ((convertFile fs p).2 = false → (convertFile fs p).1 = fs) := by
  simp only [convertFile, h]
  by_cases hc : convertText c = c
  · rw [if_pos hc]
    refine ⟨by simp [hc], ?_, fun _ => rfl⟩
    rw [hc]
    exact h
  · rw [if_neg hc]
    refine ⟨by simp [bne_iff_ne, hc], ?_, fun hfalse => by simp at hfalse⟩
    exact fsRead_fsWrite_self fs p c _ h

/-- Witness for `convertFile_write_iff` on a one-file filesystem. -/
theorem convertFile_write_iff_witness :
    fsRead [("/a", "x")] "/a" = some "x"
    ∧ ((convertFile [("/a", "x")] "/a").2 = (convertText "x" != "x")
      ∧ fsRead (convertFile [("/a", "x")] "/a").1 "/a" = some (convertText "x")
      ∧ ((convertFile [("/a", "x")] "/a").2 = false → (convertFile [("/a", "x")] "/a").1 = [("/a", "x")])) :=
  ⟨by decide, convertFile_write_iff [("/a", "x")] "/a" "x" (by decide)⟩

/-- C7: for every filesystem, `main` prints exactly one summary line
`Converted <N> files:` followed by one line `  - <path>` per changed path,
where the changed paths are exactly the entries of the hard-coded list whose
content the Rewriter changes, in original input-list order (`changedPaths`
is a filter of `test_files`, so order is preserved), and `N` is their
count. -/
theorem printed_report (fs : FS) :
    mainOutput fs
      = ("Converted " ++ toString (changedPaths fs test_files).length ++ " files:")
          :: (changedPaths fs test_files).map (fun p => "  - " ++ p) := by
  have h := runFiles_report test_files fs (by decide)
  simp only [mainOutput]
  rw [h]

/-- C8: a path list entry that does not exist on disk is skipped: the run
completes (the model is total), the missing path is never written (it still
does not exist afterwards), it is excluded from the report, every other
existing path is still processed (its final content is the rewritten
content), and the report is exactly the changed existing paths. -/
theorem missing_path_skipped (fs : FS) (ps : List String) (p : String)
    (hnd : ps.Pairwise (· ≠ ·)) (_hmem : p ∈ ps) (h : fsRead fs p = none) :
    p ∉ (runFiles fs ps).2
    ∧ fsRead (runFiles fs ps).1 p = none
    ∧ (∀ q ∈ ps, ∀ c, q ≠ p → fsRead fs q = some c →
        fsRead (runFiles fs ps).1 q = some (convertText c))
    ∧ (runFiles fs ps).2 = changedPaths fs ps := by
  refine ⟨?_, runFiles_read_none ps fs p h, ?_, runFiles_report ps fs hnd⟩
  · rw [runFiles_report ps fs hnd]
    intro hin
    have hpred := (List.mem_filter.mp hin).2
    simp [h] at hpred
  · intro q hq c hqp hr
    exact runFiles_read_final ps fs q c hnd hq hr

/-- Witness for `missing_path_skipped`: `/b` is listed but missing, `/a`
exists and is processed. -/
theorem missing_path_skipped_witness :
    (["/b", "/a"] : List String).Pairwise (· ≠ ·)
    ∧ "/b" ∈ (["/b", "/a"] : List String)
    ∧ fsRead [("/a", "x")] "/b" = none
    ∧ ("/b" ∉ (runFiles [("/a", "x")] ["/b", "/a"]).2
      ∧ fsRead (runFiles [("/a", "x")] ["/b", "/a"]).1 "/b" = none
      ∧ (∀ q ∈ (["/b", "/a"] : List String), ∀ c, q ≠ "/b" → fsRead [("/a", "x")] q = some c →
          fsRead (runFiles [("/a", "x")] ["/b", "/a"]).1 q = some (convertText c))
      ∧ (runFiles [("/a", "x")] ["/b", "/a"]).2 = changedPaths [("/a", "x")] ["/b", "/a"]) :=
  ⟨by decide, by decide, by decide,
    missing_path_skipped [("/a", "x")] ["/b", "/a"] "/b" (by decide) (by decide) (by decide)⟩
